import Mathlib

/-!
Verification of the Vigenère cryptanalysis toolkit
(IOC.py, vigenere_trykey.py, kasisiki.py, kasiski_spacings.py,
guess_key_letters.py).

Strings are embedded as `List Char`, Python integers as `Int` (letter
indices as `Nat` where the code guarantees the 0–25 range), Python
floats as exact rationals `ℚ` (chi-squared scores, which may be
`float("inf")`, as `WithTop ℚ`).  Python's stable `sorted` is embedded
as `List.insertionSort`, which is stable and has the same
sorted-permutation contract.  Python list-building loops of the form
`for x in xs: out.append(f(x))` are embedded as `List.map`, and
fallible functions (`raise ValueError`) return `Except String`.
-/

/-! ## Character-level groundwork -/

/-- A character of the Latin alphabet, either case (Python `str.isalpha`
restricted to the ASCII range that the toolkit's alphabet uses). -/
def isAsciiLetter (c : Char) : Bool :=
  ('A' ≤ c && c ≤ 'Z') || ('a' ≤ c && c ≤ 'z')

theorem toNat_ofNat_valid (n : Nat) (h : n.isValidChar) : (Char.ofNat n).toNat = n := by
  simp only [Char.ofNat, dif_pos h]
  rfl

theorem char_le_iff (a b : Char) : a ≤ b ↔ a.toNat ≤ b.toNat := by
  rw [Char.le_def, UInt32.le_def, BitVec.le_def]
  rfl

theorem char_eq_iff_toNat (a b : Char) : a = b ↔ a.toNat = b.toNat := by
  constructor
  · intro h; rw [h]
  · intro h
    have h2 := congrArg Char.ofNat h
    rwa [Char.ofNat_toNat, Char.ofNat_toNat] at h2

/-- `Char.toUpper` on the level of code points: `ord` values 97–122 drop
by 32, all others are unchanged. -/
theorem toUpper_toNat (c : Char) :
    c.toUpper.toNat = if 97 ≤ c.toNat ∧ c.toNat ≤ 122 then c.toNat - 32 else c.toNat := by
  simp only [Char.toUpper]
  split
  · exact toNat_ofNat_valid _ (Or.inl (by omega))
  · rfl

theorem isAsciiLetter_iff (c : Char) :
    isAsciiLetter c = true ↔
      (65 ≤ c.toNat ∧ c.toNat ≤ 90) ∨ (97 ≤ c.toNat ∧ c.toNat ≤ 122) := by
  simp only [isAsciiLetter, Bool.or_eq_true, Bool.and_eq_true, decide_eq_true_eq, char_le_iff]
  constructor
  · rintro (⟨h1, h2⟩ | ⟨h1, h2⟩)
    · left; exact ⟨h1, h2⟩
    · right; exact ⟨h1, h2⟩
  · rintro (⟨h1, h2⟩ | ⟨h1, h2⟩)
    · left; exact ⟨h1, h2⟩
    · right; exact ⟨h1, h2⟩

theorem toUpper_toNat_of_letter (c : Char) (h : isAsciiLetter c) :
    65 ≤ c.toUpper.toNat ∧ c.toUpper.toNat ≤ 90 := by
  rw [isAsciiLetter_iff] at h
  rw [toUpper_toNat]
  split <;> omega

/-! ## vigenere_trykey.py -/

/-- The per-character body of `text_to_numbers`: a letter `'A'..'Z'`
maps to `ord(ch) - ord('A')`, anything else raises `ValueError`. -/
def charToNum (ch : Char) : Except String Int :=
  if 'A' ≤ ch ∧ ch ≤ 'Z' then .ok ((ch.toNat : Int) - ('A'.toNat : Int))
  else .error "Non-letter character detected"

/-- `text_to_numbers` from vigenere_trykey.py: upcase, then map each
letter `'A'..'Z'` to 0–25; the first non-letter raises `ValueError`. -/
def text_to_numbers (text : List Char) : Except String (List Int) :=
  (text.map Char.toUpper).mapM charToNum

/-- `numbers_to_text` from vigenere_trykey.py: `chr(n + ord('A'))`. -/
def numbers_to_text (nums : List Int) : List Char :=
  nums.map (fun n => Char.ofNat (n.toNat + 'A'.toNat))

/-- Python `str.isalpha` on the ASCII range: nonempty and all letters.
(`"".isalpha()` is `False` in Python, so an empty key is rejected.) -/
def pyIsAlpha (s : List Char) : Bool :=
  !s.isEmpty && s.all isAsciiLetter

/-- `decrypt_vigenere` from vigenere_trykey.py:
checks `key.isalpha()`, converts both texts to numbers, and maps the
ciphertext number `c` at index `i` to `(c - key_nums[i % key_len]) % 26`
(Python `%` on integers, i.e. `Int.emod`), converting back to text. -/
def decrypt_vigenere (ciphertext key : List Char) : Except String (List Char) :=
  if !(pyIsAlpha key) then
    .error "Key must contain letters only"
  else do
    let ct_nums ← text_to_numbers ciphertext
    let key_nums ← text_to_numbers key
    let key_len := key_nums.length
    let pt_nums := (List.range ct_nums.length).map
      (fun i => (ct_nums.getD i 0 - key_nums.getD (i % key_len) 0) % 26)
    return numbers_to_text pt_nums

/-- Modelled from the spec: the symmetric companion `encrypt` used by the
round-trip property ("the inverse additive operation mapping plaintext
index i to (plaintext[i] + key[i mod len(key)]) mod 26"); it is not in
the repository's sources, which only provide `decrypt_vigenere`. -/
def encrypt_vigenere (plaintext key : List Char) : Except String (List Char) :=
  if !(pyIsAlpha key) then
    .error "Key must contain letters only"
  else do
    let pt_nums ← text_to_numbers plaintext
    let key_nums ← text_to_numbers key
    let key_len := key_nums.length
    let ct_nums := (List.range pt_nums.length).map
      (fun i => (pt_nums.getD i 0 + key_nums.getD (i % key_len) 0) % 26)
    return numbers_to_text ct_nums

/-- The 0–25 alphabet index of a letter, after upcasing. -/
def letterIndex (c : Char) : Int :=
  (c.toUpper.toNat : Int) - ('A'.toNat : Int)

/-! ### Supporting lemmas about the alphabet encoding -/

theorem letterIndex_nonneg (c : Char) (h : isAsciiLetter c) : 0 ≤ letterIndex c := by
  have h2 := toUpper_toNat_of_letter c h
  have hA : 'A'.toNat = 65 := rfl
  simp only [letterIndex]
  omega

theorem letterIndex_lt (c : Char) (h : isAsciiLetter c) : letterIndex c < 26 := by
  have h2 := toUpper_toNat_of_letter c h
  simp only [letterIndex]
  have : ('A'.toNat : Int) = 65 := by decide
  omega

theorem charToNum_toUpper (c : Char) (h : isAsciiLetter c) :
    charToNum c.toUpper = .ok (letterIndex c) := by
  have h2 := toUpper_toNat_of_letter c h
  have hle : 'A' ≤ c.toUpper ∧ c.toUpper ≤ 'Z' := by
    constructor <;> rw [char_le_iff] <;> simp <;> omega
  simp [charToNum, hle, letterIndex]

theorem text_to_numbers_ok_of_alpha (text : List Char)
    (h : ∀ c ∈ text, isAsciiLetter c) :
    text_to_numbers text = .ok (text.map letterIndex) := by
  induction text with
  | nil => rfl
  | cons c cs ih =>
    have hc : isAsciiLetter c := h c (List.mem_cons_self c cs)
    have hcs : ∀ x ∈ cs, isAsciiLetter x := fun x hx => h x (List.mem_cons_of_mem c hx)
    have hrest := ih hcs
    simp only [text_to_numbers, List.map_cons, List.mapM_cons] at *
    rw [charToNum_toUpper c hc, hrest]
    rfl

/-- `Char.ofNat (v + 65)` for `0 ≤ v < 26` is an uppercase letter whose
`letterIndex` is `v` again. -/
theorem letterIndex_ofNat (v : Int) (h0 : 0 ≤ v) (h26 : v < 26) :
    letterIndex (Char.ofNat (v.toNat + 'A'.toNat)) = v ∧
      'A' ≤ Char.ofNat (v.toNat + 'A'.toNat) ∧ Char.ofNat (v.toNat + 'A'.toNat) ≤ 'Z' := by
  have hA : 'A'.toNat = 65 := by decide
  have hval : (Char.ofNat (v.toNat + 'A'.toNat)).toNat = v.toNat + 65 := by
    rw [hA]
    exact toNat_ofNat_valid _ (Or.inl (by omega))
  have hup : (Char.ofNat (v.toNat + 'A'.toNat)).toUpper.toNat = v.toNat + 65 := by
    rw [toUpper_toNat, hval]
    rw [if_neg (by omega)]
  refine ⟨?_, ?_, ?_⟩
  · simp only [letterIndex, hup]
    omega
  · rw [char_le_iff, hval]; simp [hA]
  · rw [char_le_iff, hval]; simp; omega

theorem getD_map_letterIndex (l : List Char) (i : Nat) (h : i < l.length) (d : Char) :
    (l.map letterIndex).getD i 0 = letterIndex (l.getD i d) := by
  rw [List.getD_eq_getElem _ _ (by simpa using h), List.getD_eq_getElem _ _ h]
  simp

theorem pyIsAlpha_of (key : List Char) (hk : key ≠ [])
    (hka : ∀ c ∈ key, isAsciiLetter c) : pyIsAlpha key = true := by
  simp only [pyIsAlpha, Bool.and_eq_true, Bool.not_eq_true', List.isEmpty_eq_false,
    List.all_eq_true]
  exact ⟨hk, hka⟩

/-- Characterization of `decrypt_vigenere` on alphabetic input: it
succeeds, and the output is the letter-by-letter modular difference. -/
theorem decrypt_vigenere_ok (ct key : List Char)
    (hct : ∀ c ∈ ct, isAsciiLetter c) (hk : key ≠ [])
    (hka : ∀ c ∈ key, isAsciiLetter c) :
    decrypt_vigenere ct key = .ok ((List.range ct.length).map
      (fun i => Char.ofNat
        (((letterIndex (ct.getD i 'A') - letterIndex (key.getD (i % key.length) 'A')) % 26).toNat
          + 'A'.toNat))) := by
  have h1 := pyIsAlpha_of key hk hka
  have hm : 0 < key.length := List.length_pos.mpr hk
  simp only [decrypt_vigenere, h1, Bool.not_true, Bool.false_eq_true, if_false,
    text_to_numbers_ok_of_alpha ct hct, text_to_numbers_ok_of_alpha key hka]
  simp only [bind, Except.bind, pure, Except.pure, numbers_to_text, List.map_map,
    List.length_map]
  congr 1
  apply List.ext_getElem (by simp)
  intro i h1' h2'
  simp only [List.getElem_map, List.getElem_range, Function.comp]
  have hi : i < ct.length := by simpa using h1'
  rw [getD_map_letterIndex ct i hi 'A',
    getD_map_letterIndex key (i % key.length) (Nat.mod_lt i hm) 'A']

theorem upper_isAsciiLetter (c : Char) (h1 : 'A' ≤ c) (h2 : c ≤ 'Z') :
    isAsciiLetter c = true := by
  rw [isAsciiLetter_iff]
  rw [char_le_iff] at h1 h2
  left
  exact ⟨h1, h2⟩

/-- For an uppercase letter, `chr(letterIndex c + ord('A'))` is `c` itself. -/
theorem ofNat_letterIndex_upper (c : Char) (h1 : 'A' ≤ c) (h2 : c ≤ 'Z') :
    Char.ofNat ((letterIndex c).toNat + 'A'.toNat) = c := by
  rw [char_le_iff] at h1 h2
  have hA : 'A'.toNat = 65 := rfl
  have hZ : 'Z'.toNat = 90 := rfl
  have hup : c.toUpper.toNat = c.toNat := by
    rw [toUpper_toNat, if_neg (by omega)]
  have : (letterIndex c).toNat + 'A'.toNat = c.toNat := by
    simp only [letterIndex, hup, hA]
    omega
  rw [this, Char.ofNat_toNat]

/-- **C1.** For every alphabetic ciphertext and every non-empty alphabetic
key, `decrypt_vigenere` succeeds and maps the letter at ciphertext index
`i` to the alphabet index `(ciphertext[i] - key[i % len(key)]) % 26`
(a pure, deterministic computation in this embedding); in particular,
decrypting `"LXFOPVEFRNHR"` with key `"LEMON"` yields `"ATTACKATDAWN"`. -/
theorem decrypt_vigenere_pointwise_and_textbook :
    (∀ ct key : List Char, (∀ c ∈ ct, isAsciiLetter c) → key ≠ [] →
      (∀ c ∈ key, isAsciiLetter c) →
      ∃ pt, decrypt_vigenere ct key = .ok pt ∧ pt.length = ct.length ∧
        ∀ i, i < ct.length →
          letterIndex (pt.getD i 'A') =
            (letterIndex (ct.getD i 'A') - letterIndex (key.getD (i % key.length) 'A')) % 26) ∧
    decrypt_vigenere "LXFOPVEFRNHR".toList "LEMON".toList = .ok "ATTACKATDAWN".toList := by
  constructor
  · intro ct key hct hk hka
    refine ⟨_, decrypt_vigenere_ok ct key hct hk hka, by simp, ?_⟩
    intro i hi
    rw [List.getD_eq_getElem _ _ (by simpa using hi)]
    simp only [List.getElem_map, List.getElem_range]
    have hnn : 0 ≤ (letterIndex (ct.getD i 'A') - letterIndex (key.getD (i % key.length) 'A')) % 26 :=
      Int.emod_nonneg _ (by norm_num)
    have hlt : (letterIndex (ct.getD i 'A') - letterIndex (key.getD (i % key.length) 'A')) % 26 < 26 :=
      Int.emod_lt_of_pos _ (by norm_num)
    exact (letterIndex_ofNat _ hnn hlt).1
  · rfl

/-- Closed witness instantiating the hypotheses of the C1 theorem. -/
theorem decrypt_vigenere_pointwise_witness :
    ∃ pt, decrypt_vigenere "AB".toList "B".toList = .ok pt ∧
      pt.length = ("AB".toList).length ∧
      ∀ i, i < ("AB".toList).length →
        letterIndex (pt.getD i 'A') =
          (letterIndex (("AB".toList).getD i 'A') -
            letterIndex (("B".toList).getD (i % ("B".toList).length) 'A')) % 26 :=
  decrypt_vigenere_pointwise_and_textbook.1 "AB".toList "B".toList
    (by decide) (by decide) (by decide)

/-- **C10.** For every alphabetic ciphertext and every non-empty
alphabetic key, the plaintext produced by `decrypt_vigenere` has exactly
the length of the ciphertext and consists only of uppercase letters. -/
theorem decrypt_vigenere_length_and_uppercase (ct key : List Char)
    (hct : ∀ c ∈ ct, isAsciiLetter c) (hk : key ≠ [])
    (hka : ∀ c ∈ key, isAsciiLetter c) :
    ∃ pt, decrypt_vigenere ct key = .ok pt ∧ pt.length = ct.length ∧
      ∀ c ∈ pt, 'A' ≤ c ∧ c ≤ 'Z' := by
  refine ⟨_, decrypt_vigenere_ok ct key hct hk hka, by simp, ?_⟩
  intro c hc
  rw [List.mem_map] at hc
  obtain ⟨i, _, rfl⟩ := hc
  have hnn : 0 ≤ (letterIndex (ct.getD i 'A') - letterIndex (key.getD (i % key.length) 'A')) % 26 :=
    Int.emod_nonneg _ (by norm_num)
  have hlt : (letterIndex (ct.getD i 'A') - letterIndex (key.getD (i % key.length) 'A')) % 26 < 26 :=
    Int.emod_lt_of_pos _ (by norm_num)
  exact (letterIndex_ofNat _ hnn hlt).2

/-- Closed witness instantiating the hypotheses of the C10 theorem. -/
theorem decrypt_vigenere_length_and_uppercase_witness :
    ∃ pt, decrypt_vigenere "Hello".toList "key".toList = .ok pt ∧
      pt.length = ("Hello".toList).length ∧ ∀ c ∈ pt, 'A' ≤ c ∧ c ≤ 'Z' :=
  decrypt_vigenere_length_and_uppercase "Hello".toList "key".toList
    (by decide) (by decide) (by decide)

/-- Characterization of the spec-modelled `encrypt_vigenere` on
alphabetic input, mirroring `decrypt_vigenere_ok`. -/
theorem encrypt_vigenere_ok (pt key : List Char)
    (hpt : ∀ c ∈ pt, isAsciiLetter c) (hk : key ≠ [])
    (hka : ∀ c ∈ key, isAsciiLetter c) :
    encrypt_vigenere pt key = .ok ((List.range pt.length).map
      (fun i => Char.ofNat
        (((letterIndex (pt.getD i 'A') + letterIndex (key.getD (i % key.length) 'A')) % 26).toNat
          + 'A'.toNat))) := by
  have h1 := pyIsAlpha_of key hk hka
  have hm : 0 < key.length := List.length_pos.mpr hk
  simp only [encrypt_vigenere, h1, Bool.not_true, Bool.false_eq_true, if_false,
    text_to_numbers_ok_of_alpha pt hpt, text_to_numbers_ok_of_alpha key hka]
  simp only [bind, Except.bind, pure, Except.pure, numbers_to_text, List.map_map,
    List.length_map]
  congr 1
  apply List.ext_getElem (by simp)
  intro i h1' h2'
  simp only [List.getElem_map, List.getElem_range, Function.comp]
  have hi : i < pt.length := by simpa using h1'
  rw [getD_map_letterIndex pt i hi 'A',
    getD_map_letterIndex key (i % key.length) (Nat.mod_lt i hm) 'A']

/-- **C2.** Round trip: for every plaintext of canonical-case letters and
every non-empty alphabetic key,
`decrypt_vigenere (encrypt_vigenere pt key) key = pt`, where
`encrypt_vigenere` is the spec's inverse additive companion operation. -/
theorem decrypt_encrypt_roundtrip (pt key : List Char)
    (hpt : ∀ c ∈ pt, 'A' ≤ c ∧ c ≤ 'Z') (hk : key ≠ [])
    (hka : ∀ c ∈ key, isAsciiLetter c) :
    ∃ ct, encrypt_vigenere pt key = .ok ct ∧ decrypt_vigenere ct key = .ok pt := by
  have hpt' : ∀ c ∈ pt, isAsciiLetter c := fun c hc =>
    upper_isAsciiLetter c (hpt c hc).1 (hpt c hc).2
  refine ⟨_, encrypt_vigenere_ok pt key hpt' hk hka, ?_⟩
  set g : Nat → Char := fun i => Char.ofNat
      (((letterIndex (pt.getD i 'A') + letterIndex (key.getD (i % key.length) 'A')) % 26).toNat
        + 'A'.toNat) with hg
  have hbound : ∀ i, 0 ≤ (letterIndex (pt.getD i 'A') + letterIndex (key.getD (i % key.length) 'A')) % 26 ∧
      (letterIndex (pt.getD i 'A') + letterIndex (key.getD (i % key.length) 'A')) % 26 < 26 :=
    fun i => ⟨Int.emod_nonneg _ (by norm_num), Int.emod_lt_of_pos _ (by norm_num)⟩
  have hctalpha : ∀ c ∈ (List.range pt.length).map g, isAsciiLetter c := by
    intro c hc
    rw [List.mem_map] at hc
    obtain ⟨i, _, rfl⟩ := hc
    obtain ⟨hnn, hlt⟩ := hbound i
    obtain ⟨-, hA, hZ⟩ := letterIndex_ofNat _ hnn hlt
    exact upper_isAsciiLetter _ hA hZ
  rw [decrypt_vigenere_ok _ key hctalpha hk hka]
  congr 1
  have hlen : ((List.range pt.length).map g).length = pt.length := by simp
  apply List.ext_getElem (by simp)
  intro i h1' h2'
  have hi : i < pt.length := by simpa using h1'
  simp only [List.getElem_map, List.getElem_range]
  have hgd : ((List.range pt.length).map g).getD i 'A' = g i := by
    rw [List.getD_eq_getElem _ _ (by simpa using hi)]
    simp
  rw [hgd]
  obtain ⟨hnn, hlt⟩ := hbound i
  have hgi := letterIndex_ofNat _ hnn hlt
  rw [hg]
  rw [hgi.1]
  have hmem : pt.getD i 'A' ∈ pt := by
    rw [List.getD_eq_getElem _ _ hi]
    exact List.getElem_mem hi
  have hpc := hpt (pt.getD i 'A') hmem
  have hp0 : 0 ≤ letterIndex (pt.getD i 'A') :=
    letterIndex_nonneg _ (upper_isAsciiLetter _ hpc.1 hpc.2)
  have hp26 : letterIndex (pt.getD i 'A') < 26 :=
    letterIndex_lt _ (upper_isAsciiLetter _ hpc.1 hpc.2)
  have heq : ((letterIndex (pt.getD i 'A') + letterIndex (key.getD (i % key.length) 'A')) % 26
      - letterIndex (key.getD (i % key.length) 'A')) % 26 = letterIndex (pt.getD i 'A') := by
    omega
  rw [heq]
  rw [List.getD_eq_getElem _ _ hi] at hpc ⊢
  exact ofNat_letterIndex_upper _ hpc.1 hpc.2

/-- Closed witness instantiating the hypotheses of the C2 theorem. -/
theorem decrypt_encrypt_roundtrip_witness :
    ∃ ct, encrypt_vigenere "ATTACKATDAWN".toList "LEMON".toList = .ok ct ∧
      decrypt_vigenere ct "LEMON".toList = .ok "ATTACKATDAWN".toList :=
  decrypt_encrypt_roundtrip "ATTACKATDAWN".toList "LEMON".toList
    (by decide) (by decide) (by decide)

/-! ## IOC.py -/

/-- `index_of_coincidence` from IOC.py:
`IC = sum_i (n_i * (n_i - 1)) / (N * (N - 1))` over the counts of the
distinct characters (`Counter(text).values()`), with `0.0` returned for
`N <= 1`.  Python float arithmetic is embedded as exact `ℚ`. -/
def index_of_coincidence (text : List Char) : ℚ :=
  let N := text.length
  if N ≤ 1 then 0
  else
    let numerator := (text.dedup.map
      (fun c => (text.count c : ℚ) * ((text.count c : ℚ) - 1))).sum
    numerator / ((N : ℚ) * ((N : ℚ) - 1))

/-- `split_by_key_length` from IOC.py: start from `key_len` empty groups
and append each character to group `i % key_len` (the Python loop
`groups[i % key_len] += ch` over `enumerate(ciphertext)`). -/
def split_by_key_length (ciphertext : List Char) (key_len : Nat) : List (List Char) :=
  ciphertext.enum.foldl
    (fun groups p => groups.set (p.1 % key_len) (groups.getD (p.1 % key_len) [] ++ [p.2]))
    (List.replicate key_len [])

/-- `analyze_key_lengths` from IOC.py: for each `k` in
`[min_len, max_len]`, split into groups, compute the IC of every group
longer than 1, and average them (`0.0` when no group qualifies).  The
Python dict `k -> (avg_ic, group_ics)` is embedded as the association
list of `(k, avg_ic)` in insertion (ascending-`k`) order; the ranking
below only ever reads the average. -/
def analyze_key_lengths (ciphertext : List Char) (min_len max_len : Nat) :
    List (Nat × ℚ) :=
  (List.range (max_len + 1 - min_len)).map (fun t =>
    let k := min_len + t
    let groups := split_by_key_length ciphertext k
    let group_ics := (groups.filter (fun g => 1 < g.length)).map index_of_coincidence
    let avg_ic := if group_ics = [] then (0 : ℚ) else group_ics.sum / (group_ics.length : ℚ)
    (k, avg_ic))

/-- The key-length ranking of IOC.py's `main`: reject the range unless
`1 ≤ min_len ∧ min_len ≤ max_len` (the `"Invalid range."` early return),
otherwise sort `analyze_key_lengths` descending by average IC
(`sorted(results.items(), key=lambda x: -x[1][0])`, a stable sort,
embedded as `List.insertionSort`). -/
def rank_key_lengths_by_ic (ciphertext : List Char) (min_len max_len : Int) :
    Except String (List (Nat × ℚ)) :=
  if min_len < 1 ∨ max_len < min_len then .error "Invalid range."
  else .ok (List.insertionSort (fun a b => b.2 ≤ a.2)
    (analyze_key_lengths ciphertext min_len.toNat max_len.toNat))

theorem finset_sum_sq_le (s : Finset Char) (f : Char → ℕ) :
    ∑ c ∈ s, f c * f c ≤ (∑ c ∈ s, f c) * (∑ c ∈ s, f c) := by
  calc ∑ c ∈ s, f c * f c
      ≤ ∑ c ∈ s, f c * (∑ x ∈ s, f x) := by
        apply Finset.sum_le_sum
        intro c hc
        exact Nat.mul_le_mul_left _ (Finset.single_le_sum (fun x _ => Nat.zero_le _) hc)
    _ = (∑ c ∈ s, f c) * (∑ c ∈ s, f c) := by rw [← Finset.sum_mul]

/-- The `Counter`-based numerator of `index_of_coincidence`, rewritten as
a `Finset` sum over the distinct characters of the text. -/
theorem ioc_numerator_toFinset (text : List Char) :
    (text.dedup.map (fun c => (text.count c : ℚ) * ((text.count c : ℚ) - 1))).sum =
      ∑ c ∈ text.toFinset, (text.count c : ℚ) * ((text.count c : ℚ) - 1) := by
  have hset : text.dedup.toFinset = text.toFinset :=
    List.toFinset.ext_iff.mpr (fun x => List.mem_dedup)
  rw [← hset, List.sum_toFinset _ text.nodup_dedup]

theorem ioc_numerator_nonneg (text : List Char) :
    0 ≤ (text.dedup.map (fun c => (text.count c : ℚ) * ((text.count c : ℚ) - 1))).sum := by
  rw [ioc_numerator_toFinset]
  apply Finset.sum_nonneg
  intro c hc
  have h1 : 1 ≤ text.count c := List.count_pos_iff.mpr (List.mem_toFinset.mp hc)
  have h2 : (1 : ℚ) ≤ (text.count c : ℚ) := by exact_mod_cast h1
  nlinarith

theorem ioc_numerator_le (text : List Char) :
    (text.dedup.map (fun c => (text.count c : ℚ) * ((text.count c : ℚ) - 1))).sum ≤
      (text.length : ℚ) * ((text.length : ℚ) - 1) := by
  rw [ioc_numerator_toFinset]
  have hsum : ∑ c ∈ text.toFinset, text.count c = text.length :=
    List.sum_toFinset_count_eq_length text
  have hsq : ∑ c ∈ text.toFinset, text.count c * text.count c ≤
      text.length * text.length := by
    calc ∑ c ∈ text.toFinset, text.count c * text.count c
        ≤ (∑ c ∈ text.toFinset, text.count c) * (∑ c ∈ text.toFinset, text.count c) :=
          finset_sum_sq_le _ _
      _ = text.length * text.length := by rw [hsum]
  have hexp : ∑ c ∈ text.toFinset, (text.count c : ℚ) * ((text.count c : ℚ) - 1) =
      (∑ c ∈ text.toFinset, (text.count c : ℚ) * (text.count c : ℚ)) -
        (∑ c ∈ text.toFinset, (text.count c : ℚ)) := by
    rw [← Finset.sum_sub_distrib]
    congr 1
    funext c
    ring
  rw [hexp]
  have h1 : (∑ c ∈ text.toFinset, (text.count c : ℚ) * (text.count c : ℚ)) ≤
      (text.length : ℚ) * (text.length : ℚ) := by
    exact_mod_cast hsq
  have h2 : (∑ c ∈ text.toFinset, (text.count c : ℚ)) = (text.length : ℚ) := by
    exact_mod_cast congrArg (Nat.cast : ℕ → ℚ) hsum
  rw [h2]
  linarith

theorem sum_finset_range_eq_list (f : Nat → ℚ) (n : Nat) :
    ∑ i ∈ Finset.range n, f i = ((List.range n).map f).sum := by
  induction n with
  | zero => simp
  | succ m ih =>
    rw [Finset.sum_range_succ, List.range_succ, List.map_append, List.sum_append, ih]
    simp

/-- For an uppercase text the `Counter`-based numerator agrees with the
spec's sum over the 26 alphabet indices. -/
theorem ioc_numerator_alphabet (text : List Char)
    (h : ∀ c ∈ text, 'A' ≤ c ∧ c ≤ 'Z') :
    (text.dedup.map (fun c => (text.count c : ℚ) * ((text.count c : ℚ) - 1))).sum =
      ∑ i ∈ Finset.range 26,
        (text.count (Char.ofNat (i + 65)) : ℚ) *
          ((text.count (Char.ofNat (i + 65)) : ℚ) - 1) := by
  rw [ioc_numerator_toFinset]
  have hφval : ∀ i : Nat, i < 26 → (Char.ofNat (i + 65)).toNat = i + 65 := fun i hi =>
    toNat_ofNat_valid _ (Or.inl (by omega))
  have hrange : ∑ i ∈ Finset.range 26,
      (text.count (Char.ofNat (i + 65)) : ℚ) * ((text.count (Char.ofNat (i + 65)) : ℚ) - 1) =
      (((List.range 26).map (fun i => Char.ofNat (i + 65))).map
        (fun c => (text.count c : ℚ) * ((text.count c : ℚ) - 1))).sum := by
    rw [List.map_map]
    exact sum_finset_range_eq_list _ 26
  have hnodup : ((List.range 26).map (fun i => Char.ofNat (i + 65))).Nodup := by decide
  have hsub : text.toFinset ⊆ ((List.range 26).map (fun i => Char.ofNat (i + 65))).toFinset := by
    intro c hc
    rw [List.mem_toFinset] at hc
    obtain ⟨h1, h2⟩ := h c hc
    rw [char_le_iff] at h1 h2
    have hZ : ('Z').toNat = 90 := rfl
    have hA : ('A').toNat = 65 := rfl
    rw [List.mem_toFinset, List.mem_map]
    refine ⟨c.toNat - 65, List.mem_range.mpr (by omega), ?_⟩
    have h3 : c.toNat - 65 + 65 = c.toNat := by omega
    rw [h3]
    exact Char.ofNat_toNat c
  have hzero : ∀ x ∈ ((List.range 26).map (fun i => Char.ofNat (i + 65))).toFinset,
      x ∉ text.toFinset → (text.count x : ℚ) * ((text.count x : ℚ) - 1) = 0 := by
    intro x _ hx
    rw [List.mem_toFinset] at hx
    have h4 : text.count x = 0 := List.count_eq_zero.mpr hx
    simp [h4]
  rw [hrange, ← List.sum_toFinset _ hnodup]
  exact Finset.sum_subset hsub hzero

theorem index_of_coincidence_spec :
    (∀ text : List Char, text.length ≤ 1 → index_of_coincidence text = 0) ∧
    (∀ text : List Char, 2 ≤ text.length → (∀ c ∈ text, 'A' ≤ c ∧ c ≤ 'Z') →
      index_of_coincidence text =
        (∑ i ∈ Finset.range 26,
          (text.count (Char.ofNat (i + 65)) : ℚ) *
            ((text.count (Char.ofNat (i + 65)) : ℚ) - 1)) /
          ((text.length : ℚ) * ((text.length : ℚ) - 1))) ∧
    (∀ text : List Char, 0 ≤ index_of_coincidence text ∧ index_of_coincidence text ≤ 1) ∧
    (∀ (c : Char) (n : Nat), 2 ≤ n → index_of_coincidence (List.replicate n c) = 1) := by
  refine ⟨?_, ?_, ?_, ?_⟩
  · intro text h
    simp [index_of_coincidence, h]
  · intro text h hup
    rw [index_of_coincidence]
    simp only [if_neg (by omega : ¬ text.length ≤ 1)]
    rw [ioc_numerator_alphabet text hup]
  · intro text
    by_cases h : text.length ≤ 1
    · simp [index_of_coincidence, h]
    · have hN : 2 ≤ text.length := by omega
      have hden : (0 : ℚ) < (text.length : ℚ) * ((text.length : ℚ) - 1) := by
        have h2 : (2 : ℚ) ≤ (text.length : ℚ) := by exact_mod_cast hN
        nlinarith
      rw [index_of_coincidence]
      simp only [if_neg h]
      constructor
      · exact div_nonneg (ioc_numerator_nonneg text) (le_of_lt hden)
      · rw [div_le_one hden]
        exact ioc_numerator_le text
  · intro c n hn
    have hlen : (List.replicate n c).length = n := List.length_replicate n c
    have hded : (List.replicate n c).dedup = [c] := by
      have hne : n ≠ 0 := by omega
      rw [List.replicate_dedup hne]
    have hcount : (List.replicate n c).count c = n := by
      simp [List.count_replicate]
    rw [index_of_coincidence]
    simp only [hlen, if_neg (by omega : ¬ n ≤ 1), hded, List.map_cons, List.map_nil,
      hcount, List.sum_cons, List.sum_nil, add_zero]
    have h2 : (2 : ℚ) ≤ (n : ℚ) := by exact_mod_cast hn
    rw [div_self (by nlinarith : ((n : ℚ) * ((n : ℚ) - 1)) ≠ 0)]

/-- Closed witness instantiating the hypotheses of the C3 theorem. -/
theorem index_of_coincidence_spec_witness :
    index_of_coincidence (List.replicate 3 'A') = 1 :=
  index_of_coincidence_spec.2.2.2 'A' 3 (by decide)

instance : IsTrans (Nat × ℚ) (fun a b => b.2 ≤ a.2) :=
  ⟨fun _ _ _ h1 h2 => le_trans h2 h1⟩

instance : IsTotal (Nat × ℚ) (fun a b => b.2 ≤ a.2) :=
  ⟨fun a b => le_total b.2 a.2⟩

/-- **C8.** `rank_key_lengths_by_ic` fails (with the code's
`"Invalid range."` rejection) exactly when `min_len < 1` or
`max_len < min_len`; under valid bounds it returns the candidates of
`analyze_key_lengths`, sorted by descending average-IC score. -/
theorem rank_key_lengths_by_ic_spec (ciphertext : List Char) (min_len max_len : Int) :
    (rank_key_lengths_by_ic ciphertext min_len max_len = .error "Invalid range." ↔
      (min_len < 1 ∨ max_len < min_len)) ∧
    (1 ≤ min_len → min_len ≤ max_len →
      ∃ l, rank_key_lengths_by_ic ciphertext min_len max_len = .ok l ∧
        l.Perm (analyze_key_lengths ciphertext min_len.toNat max_len.toNat) ∧
        List.Sorted (fun a b => b.2 ≤ a.2) l) := by
  constructor
  · constructor
    · intro h
      by_contra hcon
      rw [rank_key_lengths_by_ic, if_neg hcon] at h
      exact Except.noConfusion h
    · intro h
      rw [rank_key_lengths_by_ic, if_pos h]
  · intro h1 h2
    have hcond : ¬ (min_len < 1 ∨ max_len < min_len) := by omega
    refine ⟨_, by rw [rank_key_lengths_by_ic, if_neg hcond], ?_, ?_⟩
    · exact List.perm_insertionSort _ _
    · exact List.sorted_insertionSort _ _

/-- Closed witness instantiating the hypotheses of the C8 theorem. -/
theorem rank_key_lengths_by_ic_spec_witness :
    ∃ l, rank_key_lengths_by_ic "ABAB".toList 1 2 = .ok l ∧
      l.Perm (analyze_key_lengths "ABAB".toList (1 : Int).toNat (2 : Int).toNat) ∧
      List.Sorted (fun a b => b.2 ≤ a.2) l :=
  (rank_key_lengths_by_ic_spec "ABAB".toList 1 2).2 (by norm_num) (by norm_num)

/-! ## kasisiki.py and kasiski_spacings.py -/

/-- The Python slice `ciphertext[i : i + length]`. -/
def substringAt (ciphertext : List Char) (i length : Nat) : List Char :=
  (ciphertext.drop i).take length

/-- `occurrences[sub].append(i)` on the insertion-ordered association
list that embeds the Python `defaultdict(list)`. -/
def addOccurrence : List (List Char × List Nat) → List Char → Nat →
    List (List Char × List Nat)
  | [], sub, i => [(sub, [i])]
  | (s, ps) :: rest, sub, i =>
    if s = sub then (s, ps ++ [i]) :: rest else (s, ps) :: addOccurrence rest sub i

/-- The inner loop of `find_repeated_substrings`: for one substring
length, record every start `i` in `range(0, n - length + 1)`. -/
def scanLength (ciphertext : List Char) (length : Nat)
    (occ : List (List Char × List Nat)) : List (List Char × List Nat) :=
  (List.range (ciphertext.length - length + 1)).foldl
    (fun acc i => addOccurrence acc (substringAt ciphertext i length) i) occ

/-- `find_repeated_substrings` (textually identical in kasisiki.py and
kasiski_spacings.py): for every length in
`range(min_len, min(max_len, n) + 1)` group the start positions of all
contiguous substrings, then keep the substrings with at least two
occurrences. -/
def find_repeated_substrings (ciphertext : List Char) (min_len max_len : Nat) :
    List (List Char × List Nat) :=
  let n := ciphertext.length
  let lengths := (List.range (min max_len n + 1 - min_len)).map (min_len + ·)
  let occ := lengths.foldl (fun acc len => scanLength ciphertext len acc) []
  occ.filter (fun e => 2 ≤ e.2.length)

/-- `compute_spacings` (identical in both Kasiski scripts): sort the
positions ascending (Python's stable `sorted`, embedded as
`insertionSort`) and take the `len - 1` consecutive differences
`positions[i+1] - positions[i]`. -/
def compute_spacings (positions : List Nat) : List Int :=
  let ps := List.insertionSort (fun a b => a ≤ b) positions
  (List.range (ps.length - 1)).map
    (fun i => (ps.getD (i + 1) 0 : Int) - (ps.getD i 0 : Int))

/-- `collect_all_spacings` from kasisiki.py: concatenate the consecutive
spacings of every repeated substring. -/
def collect_all_spacings (repeated : List (List Char × List Nat)) : List Int :=
  repeated.foldl (fun acc e => acc ++ compute_spacings e.2) []

/-- One iteration of the `factor_score` loop body over a spacing `d`:
`if d <= 0: continue`, else bump the count of every `f` in
`range(min_key_len, max_key_len + 1)` with `d % f == 0`.  The Python
dict `f -> count` is embedded as its lookup function on that range. -/
def factor_score_update (counts : Nat → Nat) (min_key_len max_key_len : Nat)
    (d : Int) : Nat → Nat :=
  if d ≤ 0 then counts
  else fun f =>
    if min_key_len ≤ f ∧ f ≤ max_key_len ∧ d % (f : Int) = 0 then counts f + 1 else counts f

/-- `factor_score` from kasisiki.py: counts start at 0 for every
candidate and each spacing bumps its divisor candidates. -/
def factor_score (spacings : List Int) (min_key_len max_key_len : Nat) : Nat → Nat :=
  spacings.foldl (fun counts d => factor_score_update counts min_key_len max_key_len d)
    (fun _ => 0)

/-- The ascending list of all start positions where `s` occurs in `ct`
(the reference value of one `occurrences[sub]` entry). -/
def matchPositions (ct : List Char) (s : List Char) : List Nat :=
  (List.range (ct.length - s.length + 1)).filter (fun i => substringAt ct i s.length = s)

theorem factor_score_foldl (l : List Int) (g : Nat → Nat) (a b f : Nat)
    (ha : a ≤ f) (hb : f ≤ b) :
    (l.foldl (fun counts d => factor_score_update counts a b d) g) f =
      g f + (l.filter (fun d => decide (0 < d) && decide (d % (f : Int) = 0))).length := by
  induction l generalizing g with
  | nil => simp
  | cons d rest ih =>
    rw [List.foldl_cons, ih (factor_score_update g a b d), List.filter_cons]
    by_cases hd : d ≤ 0
    · rw [factor_score_update, if_pos hd]
      have hdf : (decide (0 < d) && decide (d % (f : Int) = 0)) = false := by
        simp [show ¬ (0 : Int) < d by omega]
      rw [hdf]
      simp
    · rw [factor_score_update, if_neg hd]
      by_cases hmod : d % (f : Int) = 0
      · have hcond : (decide (0 < d) && decide (d % (f : Int) = 0)) = true := by
          simp [hmod]
          omega
        rw [if_pos ⟨ha, hb, hmod⟩, hcond]
        simp
        omega
      · have hcond : (decide (0 < d) && decide (d % (f : Int) = 0)) = false := by
          simp [hmod]
        rw [if_neg (by tauto), hcond]
        simp

theorem factor_score_count (spacings : List Int) (a b f : Nat)
    (ha : a ≤ f) (hb : f ≤ b) :
    factor_score spacings a b f =
      (spacings.filter (fun d => decide (0 < d) && decide (d % (f : Int) = 0))).length := by
  rw [factor_score]
  rw [factor_score_foldl spacings _ a b f ha hb]
  simp

/-- **C7.** `factor_score` counts, for each candidate `f` in
`[min_key_len, max_key_len]`, the spacings that are exact multiples of
`f` (skipping spacings ≤ 0); for a spacing list of positive multiples
of 6, every in-range divisor of 6 receives the full count
`len(spacings)`, and no in-range candidate exceeds that. -/
theorem factor_score_spec (spacings : List Int) (min_key_len max_key_len : Nat)
    (hmin : 1 ≤ min_key_len)
    (hall : ∀ d ∈ spacings, 0 < d ∧ (6 : Int) ∣ d) :
    (∀ f : Nat, min_key_len ≤ f → f ≤ max_key_len → (f : Int) ∣ 6 →
      factor_score spacings min_key_len max_key_len f = spacings.length) ∧
    (∀ f : Nat, min_key_len ≤ f → f ≤ max_key_len →
      factor_score spacings min_key_len max_key_len f ≤ spacings.length) := by
  constructor
  · intro f hf1 hf2 hdvd
    rw [factor_score_count spacings _ _ f hf1 hf2]
    have : spacings.filter (fun d => decide (0 < d) && decide (d % (f : Int) = 0)) =
        spacings := by
      rw [List.filter_eq_self]
      intro d hd
      obtain ⟨hpos, hdvd6⟩ := hall d hd
      have hfd : (f : Int) ∣ d := dvd_trans hdvd hdvd6
      have hmod : d % (f : Int) = 0 := Int.emod_eq_zero_of_dvd hfd
      simp [hpos, hmod]
    rw [this]
  · intro f hf1 hf2
    rw [factor_score_count spacings _ _ f hf1 hf2]
    exact List.length_filter_le _ _

/-- Closed witness instantiating the hypotheses of the C7 theorem. -/
theorem factor_score_spec_witness :
    (∀ f : Nat, 2 ≤ f → f ≤ 20 → (f : Int) ∣ 6 →
      factor_score [6, 12, 18] 2 20 f = ([6, 12, 18] : List Int).length) ∧
    (∀ f : Nat, 2 ≤ f → f ≤ 20 →
      factor_score [6, 12, 18] 2 20 f ≤ ([6, 12, 18] : List Int).length) :=
  factor_score_spec [6, 12, 18] 2 20 (by norm_num)
    (by intro d hd; fin_cases hd <;> norm_num)

/-- Dict lookup in the association-list embedding (first match; keys are
unique by construction). -/
def occList : List (List Char × List Nat) → List Char → List Nat
  | [], _ => []
  | (s, ps) :: rest, sub => if s = sub then ps else occList rest sub

theorem addOccurrence_cons_self (s : List Char) (ps : List Nat)
    (rest : List (List Char × List Nat)) (i : Nat) :
    addOccurrence ((s, ps) :: rest) s i = (s, ps ++ [i]) :: rest := by
  simp [addOccurrence]

theorem addOccurrence_cons_ne (s : List Char) (ps : List Nat)
    (rest : List (List Char × List Nat)) (sub : List Char) (i : Nat) (hs : s ≠ sub) :
    addOccurrence ((s, ps) :: rest) sub i = (s, ps) :: addOccurrence rest sub i := by
  simp [addOccurrence, hs]

theorem occList_addOccurrence (occ : List (List Char × List Nat))
    (sub : List Char) (i : Nat) (t : List Char) :
    occList (addOccurrence occ sub i) t =
      if t = sub then occList occ sub ++ [i] else occList occ t := by
  induction occ with
  | nil =>
    by_cases h : t = sub
    · subst h
      simp [addOccurrence, occList]
    · rw [if_neg h]
      simp only [addOccurrence, occList]
      rw [if_neg (fun hh => h hh.symm)]
  | cons e rest ih =>
    obtain ⟨s, ps⟩ := e
    by_cases hs : s = sub
    · subst hs
      rw [addOccurrence_cons_self]
      by_cases ht : t = s
      · subst ht
        simp [occList]
      · rw [if_neg ht]
        simp only [occList]
        rw [if_neg (fun hh => ht hh.symm), if_neg (fun hh => ht hh.symm)]
    · simp only [addOccurrence, if_neg hs]
      by_cases ht : t = sub
      · subst ht
        simp only [occList]
        rw [if_neg hs]
        rw [ih]
        simp only [if_pos rfl]
        by_cases hst : s = t
        · exact absurd hst hs
        · rw [if_neg hst]
      · rw [if_neg ht]
        simp only [occList]
        by_cases hst : s = t
        · rw [if_pos hst, if_pos hst]
        · rw [if_neg hst, if_neg hst, ih, if_neg ht]

/-- The keys of the association list. -/
def occKeys (occ : List (List Char × List Nat)) : List (List Char) :=
  occ.map Prod.fst

theorem occKeys_cons (s : List Char) (ps : List Nat)
    (rest : List (List Char × List Nat)) :
    occKeys ((s, ps) :: rest) = s :: occKeys rest := rfl

theorem occKeys_addOccurrence (occ : List (List Char × List Nat))
    (sub : List Char) (i : Nat) (t : List Char) :
    t ∈ occKeys (addOccurrence occ sub i) ↔ t ∈ occKeys occ ∨ t = sub := by
  induction occ with
  | nil => simp [addOccurrence, occKeys, eq_comm]
  | cons e rest ih =>
    obtain ⟨s, ps⟩ := e
    by_cases hs : s = sub
    · subst hs
      rw [addOccurrence_cons_self, occKeys_cons, occKeys_cons]
      simp only [List.mem_cons]
      tauto
    · rw [addOccurrence_cons_ne s ps rest sub i hs, occKeys_cons, occKeys_cons]
      simp only [List.mem_cons]
      rw [ih]
      tauto

theorem occEntries_nonempty_addOccurrence (occ : List (List Char × List Nat))
    (sub : List Char) (i : Nat) (h : ∀ e ∈ occ, e.2 ≠ []) :
    ∀ e ∈ addOccurrence occ sub i, e.2 ≠ [] := by
  induction occ with
  | nil =>
    intro e he
    simp only [addOccurrence, List.mem_singleton] at he
    subst he
    simp
  | cons f rest ih =>
    obtain ⟨s, ps⟩ := f
    intro e he
    by_cases hs : s = sub
    · subst hs
      rw [addOccurrence_cons_self] at he
      rcases List.mem_cons.mp he with he2 | he2
      · subst he2
        simp
      · exact h e (List.mem_cons_of_mem _ he2)
    · rw [addOccurrence_cons_ne s ps rest sub i hs] at he
      rcases List.mem_cons.mp he with he2 | he2
      · subst he2
        exact h (s, ps) (List.mem_cons_self _ _)
      · exact ih (fun x hx => h x (List.mem_cons_of_mem _ hx)) e he2

theorem occKeys_nodup_addOccurrence (occ : List (List Char × List Nat))
    (sub : List Char) (i : Nat) (h : (occKeys occ).Nodup) :
    (occKeys (addOccurrence occ sub i)).Nodup := by
  induction occ with
  | nil => simp [addOccurrence, occKeys]
  | cons e rest ih =>
    obtain ⟨s, ps⟩ := e
    by_cases hs : s = sub
    · subst hs
      rw [addOccurrence_cons_self, occKeys_cons]
      rw [occKeys_cons] at h
      exact h
    · rw [occKeys_cons, List.nodup_cons] at h
      obtain ⟨hnotin, hrest⟩ := h
      rw [addOccurrence_cons_ne s ps rest sub i hs, occKeys_cons, List.nodup_cons]
      constructor
      · rw [occKeys_addOccurrence]
        rintro (hmem | hmem)
        · exact hnotin hmem
        · exact hs hmem
      · exact ih hrest

theorem occKeys_mem_iff_occList_ne (occ : List (List Char × List Nat))
    (h : ∀ e ∈ occ, e.2 ≠ []) (t : List Char) :
    t ∈ occKeys occ ↔ occList occ t ≠ [] := by
  induction occ with
  | nil => simp [occKeys, occList]
  | cons e rest ih =>
    obtain ⟨s, ps⟩ := e
    rw [occKeys_cons]
    simp only [List.mem_cons, occList]
    by_cases hst : s = t
    · subst hst
      rw [if_pos rfl]
      have hne := h (s, ps) (List.mem_cons_self _ _)
      simp only [ne_eq] at hne
      simp [hne]
    · rw [if_neg hst]
      rw [ih (fun x hx => h x (List.mem_cons_of_mem _ hx))]
      constructor
      · rintro (hh | hh)
        · exact absurd hh.symm hst
        · exact hh
      · intro hh
        right
        exact hh

theorem mem_of_occList (occ : List (List Char × List Nat))
    (hnd : (occKeys occ).Nodup) (t : List Char) (ht : t ∈ occKeys occ) :
    (t, occList occ t) ∈ occ := by
  induction occ with
  | nil => simp [occKeys] at ht
  | cons e rest ih =>
    obtain ⟨s, ps⟩ := e
    rw [occKeys_cons, List.nodup_cons] at hnd
    rw [occKeys_cons] at ht
    simp only [List.mem_cons] at ht
    simp only [occList]
    rcases ht with rfl | ht
    · rw [if_pos rfl]
      exact List.mem_cons_self _ _
    · by_cases hst : s = t
      · subst hst
        exact absurd ht hnd.1
      · rw [if_neg hst]
        exact List.mem_cons_of_mem _ (ih hnd.2 ht)

theorem occList_of_mem (occ : List (List Char × List Nat))
    (hnd : (occKeys occ).Nodup) (s : List Char) (ps : List Nat)
    (hmem : (s, ps) ∈ occ) : occList occ s = ps ∧ s ∈ occKeys occ := by
  induction occ with
  | nil => simp at hmem
  | cons e rest ih =>
    obtain ⟨s', ps'⟩ := e
    rw [occKeys_cons, List.nodup_cons] at hnd
    simp only [List.mem_cons] at hmem
    rw [occKeys_cons]
    simp only [occList, List.mem_cons]
    rcases hmem with heq | hmem
    · obtain ⟨h1, h2⟩ := Prod.mk.injEq .. ▸ heq
      injection heq with h1 h2
      subst h1
      subst h2
      rw [if_pos rfl]
      exact ⟨rfl, Or.inl rfl⟩
    · by_cases hst : s' = s
      · subst hst
        have : s' ∈ occKeys rest := by
          simp only [occKeys, List.mem_map]
          exact ⟨(s', ps), hmem, rfl⟩
        exact absurd this hnd.1
      · rw [if_neg hst]
        obtain ⟨ha, hb⟩ := ih hnd.2 hmem
        exact ⟨ha, Or.inr hb⟩

theorem occList_foldl_add (f : Nat → List Char) (is : List Nat)
    (occ : List (List Char × List Nat)) (t : List Char) :
    occList (is.foldl (fun acc i => addOccurrence acc (f i) i) occ) t =
      occList occ t ++ is.filter (fun i => f i = t) := by
  induction is generalizing occ with
  | nil => simp
  | cons i rest ih =>
    rw [List.foldl_cons, ih, occList_addOccurrence, List.filter_cons]
    by_cases h : f i = t
    · rw [if_pos h.symm, h]
      simp
    · rw [if_neg (fun hh => h hh.symm)]
      simp [h]

theorem occNonempty_foldl_add (f : Nat → List Char) (is : List Nat)
    (occ : List (List Char × List Nat)) (h : ∀ e ∈ occ, e.2 ≠ []) :
    ∀ e ∈ is.foldl (fun acc i => addOccurrence acc (f i) i) occ, e.2 ≠ [] := by
  induction is generalizing occ with
  | nil => exact h
  | cons i rest ih =>
    rw [List.foldl_cons]
    exact ih _ (occEntries_nonempty_addOccurrence occ (f i) i h)

theorem occNodup_foldl_add (f : Nat → List Char) (is : List Nat)
    (occ : List (List Char × List Nat)) (h : (occKeys occ).Nodup) :
    (occKeys (is.foldl (fun acc i => addOccurrence acc (f i) i) occ)).Nodup := by
  induction is generalizing occ with
  | nil => exact h
  | cons i rest ih =>
    rw [List.foldl_cons]
    exact ih _ (occKeys_nodup_addOccurrence occ (f i) i h)

theorem occList_scanLength (ct : List Char) (L : Nat)
    (occ : List (List Char × List Nat)) (t : List Char) :
    occList (scanLength ct L occ) t =
      occList occ t ++
        (List.range (ct.length - L + 1)).filter (fun i => substringAt ct i L = t) := by
  rw [scanLength]
  exact occList_foldl_add (fun i => substringAt ct i L) _ occ t

theorem occList_lengths_foldl (ct : List Char) (lengths : List Nat)
    (occ : List (List Char × List Nat)) (t : List Char) :
    occList (lengths.foldl (fun acc L => scanLength ct L acc) occ) t =
      occList occ t ++
        (lengths.map (fun L =>
          (List.range (ct.length - L + 1)).filter (fun i => substringAt ct i L = t))).flatten := by
  induction lengths generalizing occ with
  | nil => simp
  | cons L rest ih =>
    rw [List.foldl_cons, ih, occList_scanLength]
    simp [List.append_assoc]

theorem length_substringAt (ct : List Char) (i L : Nat)
    (hL : L ≤ ct.length) (hi : i ≤ ct.length - L) :
    (substringAt ct i L).length = L := by
  simp only [substringAt, List.length_take, List.length_drop]
  omega

theorem filter_substring_empty (ct : List Char) (t : List Char) (L : Nat)
    (hL : L ≤ ct.length) (hne : t.length ≠ L) :
    (List.range (ct.length - L + 1)).filter (fun i => substringAt ct i L = t) = [] := by
  rw [List.filter_eq_nil_iff]
  intro i hi
  rw [List.mem_range] at hi
  intro heq
  rw [decide_eq_true_eq] at heq
  have hlen : (substringAt ct i L).length = L := length_substringAt ct i L hL (by omega)
  rw [heq] at hlen
  exact hne hlen

theorem join_filters_of_nodup (ct : List Char) (t : List Char) (Ls : List Nat)
    (hle : ∀ L ∈ Ls, L ≤ ct.length) (hnd : Ls.Nodup) :
    (Ls.map (fun L =>
      (List.range (ct.length - L + 1)).filter (fun i => substringAt ct i L = t))).flatten =
      if t.length ∈ Ls then matchPositions ct t else [] := by
  induction Ls with
  | nil => simp
  | cons L rest ih =>
    rw [List.map_cons, List.flatten_cons]
    rw [List.nodup_cons] at hnd
    by_cases hL : t.length = L
    · subst hL
      rw [if_pos (List.mem_cons_self _ _)]
      have hrest : t.length ∉ rest := hnd.1
      rw [ih (fun x hx => hle x (List.mem_cons_of_mem _ hx)) hnd.2, if_neg hrest]
      rw [List.append_nil]
      rfl
    · have hempty := filter_substring_empty ct t L
        (hle L (List.mem_cons_self _ _)) hL
      rw [hempty, List.nil_append,
        ih (fun x hx => hle x (List.mem_cons_of_mem _ hx)) hnd.2]
      by_cases hmem : t.length ∈ rest
      · rw [if_pos hmem, if_pos (List.mem_cons_of_mem _ hmem)]
      · rw [if_neg hmem, if_neg (by
          intro hc
          rcases List.mem_cons.mp hc with hc | hc
          · exact hL hc
          · exact hmem hc)]

theorem occNonempty_lengths_foldl (ct : List Char) (lengths : List Nat)
    (occ : List (List Char × List Nat)) (h : ∀ e ∈ occ, e.2 ≠ []) :
    ∀ e ∈ lengths.foldl (fun acc L => scanLength ct L acc) occ, e.2 ≠ [] := by
  induction lengths generalizing occ with
  | nil => exact h
  | cons L rest ih =>
    rw [List.foldl_cons]
    exact ih _ (occNonempty_foldl_add (fun i => substringAt ct i L) _ occ h)

theorem occNodup_lengths_foldl (ct : List Char) (lengths : List Nat)
    (occ : List (List Char × List Nat)) (h : (occKeys occ).Nodup) :
    (occKeys (lengths.foldl (fun acc L => scanLength ct L acc) occ)).Nodup := by
  induction lengths generalizing occ with
  | nil => exact h
  | cons L rest ih =>
    rw [List.foldl_cons]
    exact ih _ (occNodup_foldl_add (fun i => substringAt ct i L) _ occ h)

theorem occList_kasiski (ct : List Char) (minL maxL : Nat) (t : List Char) :
    occList (((List.range (min maxL ct.length + 1 - minL)).map (minL + ·)).foldl
      (fun acc L => scanLength ct L acc) []) t =
      if minL ≤ t.length ∧ t.length ≤ min maxL ct.length then matchPositions ct t
      else [] := by
  rw [occList_lengths_foldl]
  have h0 : occList [] t = [] := rfl
  rw [h0, List.nil_append]
  have hle : ∀ L ∈ (List.range (min maxL ct.length + 1 - minL)).map (minL + ·),
      L ≤ ct.length := by
    intro L hL
    rw [List.mem_map] at hL
    obtain ⟨j, hj, rfl⟩ := hL
    rw [List.mem_range] at hj
    omega
  have hnd : ((List.range (min maxL ct.length + 1 - minL)).map (minL + ·)).Nodup := by
    apply List.Nodup.map
    · intro a b hab
      exact Nat.add_left_cancel hab
    · exact List.nodup_range _
  rw [join_filters_of_nodup ct t _ hle hnd]
  have hmem : t.length ∈ (List.range (min maxL ct.length + 1 - minL)).map (minL + ·) ↔
      (minL ≤ t.length ∧ t.length ≤ min maxL ct.length) := by
    rw [List.mem_map]
    constructor
    · rintro ⟨j, hj, hjt⟩
      rw [List.mem_range] at hj
      omega
    · rintro ⟨h1, h2⟩
      exact ⟨t.length - minL, List.mem_range.mpr (by omega), by omega⟩
  by_cases hc : minL ≤ t.length ∧ t.length ≤ min maxL ct.length
  · rw [if_pos (hmem.mpr hc), if_pos hc]
  · rw [if_neg (fun hh => hc (hmem.mp hh)), if_neg hc]

theorem find_repeated_substrings_eq (ct : List Char) (minL maxL : Nat) :
    find_repeated_substrings ct minL maxL =
      (((List.range (min maxL ct.length + 1 - minL)).map (minL + ·)).foldl
        (fun acc L => scanLength ct L acc) []).filter (fun e => 2 ≤ e.2.length) := rfl

/-- **C5.** `find_repeated_substrings` returns exactly the substrings
whose length lies in `[min_len, min(max_len, N)]` with their full
ascending position lists (`matchPositions`, the outcome of enumerating
all `N - L + 1` contiguous substrings of each length), retaining only
entries with at least two occurrences; in particular every reported
position indexes an occurrence of the substring in the ciphertext. -/
theorem find_repeated_substrings_spec (ct : List Char) (min_len max_len : Nat) :
    (∀ s ps, (s, ps) ∈ find_repeated_substrings ct min_len max_len ↔
      (min_len ≤ s.length ∧ s.length ≤ max_len ∧ s.length ≤ ct.length ∧
        ps = matchPositions ct s ∧ 2 ≤ ps.length)) ∧
    (∀ s ps, (s, ps) ∈ find_repeated_substrings ct min_len max_len →
      2 ≤ ps.length ∧ ∀ p ∈ ps, p + s.length ≤ ct.length ∧
        substringAt ct p s.length = s) := by
  have hnonempty := occNonempty_lengths_foldl ct
    ((List.range (min max_len ct.length + 1 - min_len)).map (min_len + ·)) []
    (by intro e he; simp at he)
  have hnodup := occNodup_lengths_foldl ct
    ((List.range (min max_len ct.length + 1 - min_len)).map (min_len + ·)) []
    (by simp [occKeys])
  have hiff : ∀ s ps, (s, ps) ∈ find_repeated_substrings ct min_len max_len ↔
      (min_len ≤ s.length ∧ s.length ≤ max_len ∧ s.length ≤ ct.length ∧
        ps = matchPositions ct s ∧ 2 ≤ ps.length) := by
    intro s ps
    rw [find_repeated_substrings_eq, List.mem_filter]
    constructor
    · rintro ⟨hmem, hlen⟩
      rw [decide_eq_true_eq] at hlen
      obtain ⟨hocc, -⟩ := occList_of_mem _ hnodup s ps hmem
      rw [occList_kasiski] at hocc
      by_cases hc : min_len ≤ s.length ∧ s.length ≤ min max_len ct.length
      · rw [if_pos hc] at hocc
        refine ⟨hc.1, by omega, by omega, hocc.symm, hlen⟩
      · rw [if_neg hc] at hocc
        rw [← hocc] at hlen
        simp at hlen
    · rintro ⟨h1, h2, h3, hps, hlen⟩
      have hc : min_len ≤ s.length ∧ s.length ≤ min max_len ct.length :=
        ⟨h1, by omega⟩
      have hocc : occList (((List.range (min max_len ct.length + 1 - min_len)).map
          (min_len + ·)).foldl (fun acc L => scanLength ct L acc) []) s =
          matchPositions ct s := by
        rw [occList_kasiski, if_pos hc]
      have hne : occList (((List.range (min max_len ct.length + 1 - min_len)).map
          (min_len + ·)).foldl (fun acc L => scanLength ct L acc) []) s ≠ [] := by
        rw [hocc, ← hps]
        intro hnil
        rw [hnil] at hlen
        simp at hlen
      have hkey := (occKeys_mem_iff_occList_ne _ hnonempty s).mpr hne
      have hmem := mem_of_occList _ hnodup s hkey
      rw [hocc, ← hps] at hmem
      exact ⟨hmem, by rw [decide_eq_true_eq]; exact hlen⟩
  refine ⟨hiff, ?_⟩
  intro s ps hmem
  obtain ⟨h1, h2, h3, hps, hlen⟩ := (hiff s ps).mp hmem
  refine ⟨hlen, ?_⟩
  intro p hp
  rw [hps] at hp
  rw [matchPositions, List.mem_filter, List.mem_range, decide_eq_true_eq] at hp
  exact ⟨by omega, hp.2⟩

/-- Closed witness instantiating the C5 theorem: "ABC" repeats at
positions 0 and 3 of "ABCABC". -/
theorem find_repeated_substrings_spec_witness :
    ("ABC".toList, [0, 3]) ∈ find_repeated_substrings "ABCABC".toList 3 3 :=
  ((find_repeated_substrings_spec "ABCABC".toList 3 3).1 "ABC".toList [0, 3]).mpr
    (by refine ⟨by decide, by decide, by decide, by decide, by decide⟩)

/-- **C6.** `compute_spacings` sorts its input ascending and returns
exactly the consecutive differences (one fewer than the number of
positions, not all pairwise differences); on the position list of any
entry returned by `find_repeated_substrings` every spacing is a
positive integer. -/
theorem compute_spacings_spec :
    (∀ positions : List Nat, ∃ sorted : List Nat,
      sorted.Perm positions ∧ List.Sorted (· ≤ ·) sorted ∧
      compute_spacings positions = (List.range (sorted.length - 1)).map
        (fun i => (sorted.getD (i + 1) 0 : Int) - (sorted.getD i 0 : Int)) ∧
      (compute_spacings positions).length = positions.length - 1) ∧
    (∀ ct min_len max_len s ps,
      (s, ps) ∈ find_repeated_substrings ct min_len max_len →
      ∀ d ∈ compute_spacings ps, 0 < d) := by
  constructor
  · intro positions
    refine ⟨List.insertionSort (fun a b => a ≤ b) positions,
      List.perm_insertionSort _ _, List.sorted_insertionSort _ _, rfl, ?_⟩
    simp [compute_spacings, List.length_insertionSort]
  · intro ct min_len max_len s ps hmem d hd
    obtain ⟨-, -, -, hps, -⟩ :=
      ((find_repeated_substrings_spec ct min_len max_len).1 s ps).mp hmem
    subst hps
    have hpair : List.Pairwise (· < ·) (matchPositions ct s) :=
      List.Pairwise.sublist (List.filter_sublist _) (List.pairwise_lt_range _)
    have hle : List.Sorted (· ≤ ·) (matchPositions ct s) :=
      hpair.imp le_of_lt
    have hsortid : List.insertionSort (fun a b => a ≤ b) (matchPositions ct s) =
        matchPositions ct s := List.Sorted.insertionSort_eq hle
    rw [compute_spacings] at hd
    simp only [hsortid] at hd
    obtain ⟨i, hi, rfl⟩ := List.mem_map.mp hd
    rw [List.mem_range] at hi
    have hi1 : i < (matchPositions ct s).length := by omega
    have hi2 : i + 1 < (matchPositions ct s).length := by omega
    rw [List.getD_eq_getElem _ _ hi1, List.getD_eq_getElem _ _ hi2]
    have hlt := List.pairwise_iff_getElem.mp hpair i (i + 1) hi1 hi2 (by omega)
    omega

/-- Closed witness instantiating the C6 theorem on a concrete
position list. -/
theorem compute_spacings_spec_witness :
    ∃ sorted : List Nat, sorted.Perm [9, 3, 5] ∧ List.Sorted (· ≤ ·) sorted ∧
      compute_spacings [9, 3, 5] = (List.range (sorted.length - 1)).map
        (fun i => (sorted.getD (i + 1) 0 : Int) - (sorted.getD i 0 : Int)) ∧
      (compute_spacings [9, 3, 5]).length = ([9, 3, 5] : List Nat).length - 1 :=
  compute_spacings_spec.1 [9, 3, 5]

/-! ## guess_key_letters.py -/

/-- `EN_FREQ` from guess_key_letters.py: the normalized English letter
frequencies (A–Z), as exact rationals. -/
def EN_FREQ : List ℚ :=
  [0.08167, 0.01492, 0.02782, 0.04253, 0.12702, 0.02228, 0.02015,
   0.06094, 0.06966, 0.00153, 0.00772, 0.04025, 0.02406, 0.06749,
   0.07507, 0.01929, 0.00095, 0.05987, 0.06327, 0.09056, 0.02758,
   0.00978, 0.02360, 0.00150, 0.01974, 0.00074]

/-- `caesar_decrypt_nums`: `(c - shift) % 26` per number. -/
def caesar_decrypt_nums (group_nums : List Int) (shift : Int) : List Int :=
  group_nums.map (fun c => (c - shift) % 26)

/-- `chi_squared_score` from guess_key_letters.py: `float("inf")` (here
`⊤`) for an empty group, else the sum over the 26 letters of
`(observed - expected)² / expected` with `observed = counts.get(i, 0)`,
`expected = EN_FREQ[i] * N`, and terms with `expected ≤ 0` skipped. -/
def chi_squared_score (plain_nums : List Int) : WithTop ℚ :=
  let N := plain_nums.length
  if N = 0 then ⊤
  else
    ((∑ i ∈ Finset.range 26,
      if 0 < EN_FREQ.getD i 0 * (N : ℚ) then
        ((plain_nums.count (i : Int) : ℚ) - EN_FREQ.getD i 0 * (N : ℚ)) ^ 2 /
          (EN_FREQ.getD i 0 * (N : ℚ))
      else 0 : ℚ) : WithTop ℚ)

/-- `best_shifts_for_group`: score all 26 shifts, sort ascending by
chi-squared (Python's stable sort, embedded as `insertionSort`), and
return the first `top_n`. -/
def best_shifts_for_group (group_nums : List Int) (top_n : Nat) :
    List (Int × WithTop ℚ) :=
  let scored := (List.range 26).map (fun (shift : Nat) =>
    ((shift : Int), chi_squared_score (caesar_decrypt_nums group_nums (shift : Int))))
  (List.insertionSort (fun a b => a.2 ≤ b.2) scored).take top_n

instance : IsTrans (Int × WithTop ℚ) (fun a b => a.2 ≤ b.2) :=
  ⟨fun _ _ _ h1 h2 => le_trans h1 h2⟩

instance : IsTotal (Int × WithTop ℚ) (fun a b => a.2 ≤ b.2) :=
  ⟨fun a b => le_total a.2 b.2⟩

theorem en_freq_pos : ∀ i, i < 26 → 0 < EN_FREQ.getD i 0 := by
  intro i hi
  interval_cases i <;> norm_num [EN_FREQ]

theorem head?_of_take {α : Type} (l : List α) (n : Nat) (e : α)
    (h : (l.take n).head? = some e) : l.head? = some e := by
  cases l with
  | nil => simp at h
  | cons a t =>
    cases n with
    | zero => simp at h
    | succ m => simpa using h

/-- **C4 (counterexample to the claim as stated).** For the empty group,
every one of the 26 shifts scores `+∞`, and the recoverer still selects
shift 0 with score `+∞` as its best candidate — so an empty group's
`+∞` score *is* selected as best. -/
theorem best_shifts_empty_top_selected :
    (best_shifts_for_group [] 3).head? =
      some (0, (⊤ : WithTop ℚ)) := by decide

/-- **C4 (amended).** `chi_squared_score` is `+∞` exactly on the empty
group; on a non-empty group no term of the spec's formula is skipped
(every `expected_i = EN_FREQ[i]·N` is positive) and the score is the
finite rational `Σ_i (observed_i − expected_i)²/expected_i`;
`best_shifts_for_group` returns the first `top_n` entries of the
score-sorted list of all 26 shifts, so its head minimizes the
chi-squared score, and for a non-empty group that best score is finite
(`+∞` is only ever selected for an empty group, which carries no
information). -/
theorem best_shifts_for_group_spec (g : List Int) (top_n : Nat) :
    (chi_squared_score g = ⊤ ↔ g = []) ∧
    (g ≠ [] → chi_squared_score g =
      ((∑ i ∈ Finset.range 26,
        ((g.count (i : Int) : ℚ) - EN_FREQ.getD i 0 * (g.length : ℚ)) ^ 2 /
          (EN_FREQ.getD i 0 * (g.length : ℚ)) : ℚ) : WithTop ℚ)) ∧
    (∃ scored : List (Int × WithTop ℚ),
      scored.Perm ((List.range 26).map (fun (shift : Nat) =>
        ((shift : Int), chi_squared_score (caesar_decrypt_nums g (shift : Int))))) ∧
      List.Sorted (fun a b => a.2 ≤ b.2) scored ∧
      best_shifts_for_group g top_n = scored.take top_n) ∧
    (∀ e, (best_shifts_for_group g top_n).head? = some e →
      (∀ shift : Nat, shift < 26 →
        e.2 ≤ chi_squared_score (caesar_decrypt_nums g (shift : Int))) ∧
      (g ≠ [] → e.2 < ⊤)) := by
  have hchi_ne : ∀ l : List Int, l ≠ [] → ∃ q : ℚ, chi_squared_score l = (q : WithTop ℚ) := by
    intro l hl
    rw [chi_squared_score]
    rw [if_neg (by simpa [List.length_eq_zero] using hl)]
    exact ⟨_, rfl⟩
  refine ⟨?_, ?_, ?_, ?_⟩
  · constructor
    · intro h
      by_contra hne
      obtain ⟨q, hq⟩ := hchi_ne g hne
      rw [hq] at h
      exact WithTop.coe_ne_top h
    · intro h
      subst h
      rfl
  · intro h
    have hN : g.length ≠ 0 := by simpa [List.length_eq_zero] using h
    rw [chi_squared_score]
    rw [if_neg hN]
    congr 1
    apply Finset.sum_congr rfl
    intro i hi
    rw [Finset.mem_range] at hi
    have hpos : 0 < EN_FREQ.getD i 0 * (g.length : ℚ) := by
      apply mul_pos (en_freq_pos i hi)
      exact_mod_cast Nat.pos_of_ne_zero hN
    rw [if_pos hpos]
  · exact ⟨_, List.perm_insertionSort _ _, List.sorted_insertionSort _ _, rfl⟩
  · intro e he
    have he' : (List.insertionSort (fun a b => a.2 ≤ b.2)
        ((List.range 26).map (fun (shift : Nat) =>
          ((shift : Int), chi_squared_score (caesar_decrypt_nums g (shift : Int)))))).head? =
        some e := head?_of_take _ top_n e he
    have hsorted := List.sorted_insertionSort (fun a b : Int × WithTop ℚ => a.2 ≤ b.2)
      ((List.range 26).map (fun (shift : Nat) =>
        ((shift : Int), chi_squared_score (caesar_decrypt_nums g (shift : Int)))))
    have hperm := List.perm_insertionSort (fun a b : Int × WithTop ℚ => a.2 ≤ b.2)
      ((List.range 26).map (fun (shift : Nat) =>
        ((shift : Int), chi_squared_score (caesar_decrypt_nums g (shift : Int)))))
    have hmin : ∀ shift : Nat, shift < 26 →
        e.2 ≤ chi_squared_score (caesar_decrypt_nums g (shift : Int)) := by
      intro shift hshift
      have hmemraw : ((shift : Int), chi_squared_score (caesar_decrypt_nums g (shift : Int))) ∈
          (List.range 26).map (fun (sh : Nat) =>
            ((sh : Int), chi_squared_score (caesar_decrypt_nums g (sh : Int)))) := by
        apply List.mem_map.mpr
        exact ⟨shift, List.mem_range.mpr hshift, rfl⟩
      have hmemsorted := (hperm.mem_iff).mpr hmemraw
      cases hLeq : List.insertionSort (fun a b : Int × WithTop ℚ => a.2 ≤ b.2)
          ((List.range 26).map (fun (shift : Nat) =>
            ((shift : Int), chi_squared_score (caesar_decrypt_nums g (shift : Int))))) with
      | nil =>
        rw [hLeq] at he'
        simp at he'
      | cons a rest =>
        rw [hLeq] at he' hsorted hmemsorted
        simp only [List.head?_cons, Option.some.injEq] at he'
        subst he'
        rcases List.mem_cons.mp hmemsorted with hx | hx
        · rw [← hx]
        · exact List.rel_of_sorted_cons hsorted _ hx
    refine ⟨hmin, ?_⟩
    intro hne
    have hcd : caesar_decrypt_nums g (0 : Int) ≠ [] := by
      intro hc
      apply hne
      have := congrArg List.length hc
      simp [caesar_decrypt_nums] at this
      exact this
    obtain ⟨q, hq⟩ := hchi_ne (caesar_decrypt_nums g (0 : Int)) hcd
    have h0 := hmin 0 (by norm_num)
    rw [show ((0 : Nat) : Int) = (0 : Int) by norm_num] at h0
    rw [hq] at h0
    exact lt_of_le_of_lt h0 (WithTop.coe_lt_top q)

/-- Closed witness instantiating the C4 amended theorem's non-emptiness
hypothesis at a concrete group. -/
theorem best_shifts_for_group_spec_witness :
    chi_squared_score [2] =
      ((∑ i ∈ Finset.range 26,
        ((([2] : List Int).count (i : Int) : ℚ) -
            EN_FREQ.getD i 0 * (([2] : List Int).length : ℚ)) ^ 2 /
          (EN_FREQ.getD i 0 * (([2] : List Int).length : ℚ)) : ℚ) : WithTop ℚ) :=
  (best_shifts_for_group_spec [2] 3).2.1 (by decide)

/-! ## The text normalizer (`load_ciphertext` in IOC.py and both
Kasiski scripts) -/

/-- Python `str.strip`'s whitespace set. -/
def pyIsWhitespace (c : Char) : Bool :=
  c = ' ' || c = '\n' || c = '\t' || c = '\r' || c = '\x0b' || c = '\x0c'

/-- Python `content.strip()`: drop whitespace from both ends. -/
def pyStrip (s : List Char) : List Char :=
  ((s.dropWhile pyIsWhitespace).reverse.dropWhile pyIsWhitespace).reverse

/-- `content.replace(" ", "").replace("\n", "")`: remove every space and
newline. -/
def pyRemoveSpaceNewline (s : List Char) : List Char :=
  s.filter (fun c => c ≠ ' ' ∧ c ≠ '\n')

/-- Python `str.isalpha` on one character, restricted to the Basic
Latin, Latin-1 Supplement and Greek ranges this file evaluates it on
(Unicode letter category: ASCII letters; `ª µ º À–Ö Ø–ö ø–ÿ`; the Greek
letters `Α–Ω α–ω`).  Python's `isalpha` is true for all of these. -/
def pyIsAlphaCharFull (c : Char) : Bool :=
  ('A' ≤ c && c ≤ 'Z') || ('a' ≤ c && c ≤ 'z') ||
  (c.toNat = 0xAA) || (c.toNat = 0xB5) || (c.toNat = 0xBA) ||
  (0xC0 ≤ c.toNat && c.toNat ≤ 0xD6) ||
  (0xD8 ≤ c.toNat && c.toNat ≤ 0xF6) ||
  (0xF8 ≤ c.toNat && c.toNat ≤ 0xFF) ||
  (0x391 ≤ c.toNat && c.toNat ≤ 0x3A9 && c.toNat ≠ 0x3A2) ||
  (0x3B1 ≤ c.toNat && c.toNat ≤ 0x3C9)

/-- Python `str.isalpha` on a string: nonempty and all-alphabetic. -/
def pyIsAlphaStrFull (s : List Char) : Bool :=
  !s.isEmpty && s.all pyIsAlphaCharFull

/-- Python `str.upper` on one character, faithful on the ranges this
file evaluates it on (ASCII, `à–þ` except `÷`, and `α–ω` except `ς`,
all of which upcase by subtracting 32; identity elsewhere). -/
def pyUpperChar (c : Char) : Char :=
  if ('a' ≤ c && c ≤ 'z') then Char.ofNat (c.toNat - 32)
  else if (0xE0 ≤ c.toNat && c.toNat ≤ 0xFE && c.toNat ≠ 0xF7) then Char.ofNat (c.toNat - 32)
  else if (0x3B1 ≤ c.toNat && c.toNat ≤ 0x3C9 && c.toNat ≠ 0x3C2) then Char.ofNat (c.toNat - 32)
  else c

/-- The pure validation core of `load_ciphertext` (identical in IOC.py,
kasisiki.py and kasiski_spacings.py), applied to the file's content:
strip, remove spaces and newlines, `raise ValueError` unless
`content.isalpha()`, then return `content.upper()`. -/
def load_ciphertext_normalize (content : List Char) : Except String (List Char) :=
  let content := pyRemoveSpaceNewline (pyStrip content)
  if !(pyIsAlphaStrFull content) then
    .error "cipher.txt must contain letters only (A-Z)."
  else
    .ok (content.map pyUpperChar)

/-- **C9.** The normalizer rejects digits and punctuation and
case-folds accepted input, but a non-Latin letter such as `'α'` passes
Python's Unicode-wide `str.isalpha` check and is silently accepted and
case-folded to `'Α'` instead of raising the advertised
`"letters only (A–Z)"` error — the code contradicts its own error
message and the claim. -/
theorem load_ciphertext_normalize_nonlatin :
    load_ciphertext_normalize "AB1".toList =
      .error "cipher.txt must contain letters only (A-Z)." ∧
    load_ciphertext_normalize "AB;".toList =
      .error "cipher.txt must contain letters only (A-Z)." ∧
    load_ciphertext_normalize "ab cd".toList = .ok "ABCD".toList ∧
    load_ciphertext_normalize "α".toList = .ok "Α".toList :=
  ⟨rfl, rfl, rfl, rfl⟩
